import Mathlib

/-!
Shallow embedding of the lmServer load balancer core (src/server/src/balancer.rs).

The registry `HashMap<String, NodeInfo>` is modelled as an association list in
iteration order; `Instant` timestamps are modelled as `Nat` (with the saturating
`duration_since` modelled by truncated `Nat` subtraction).  The registry
operations (`find_and_occupy_node`, `update_node_state`, the discovery upsert,
`remove_stale_nodes`), the discovery-datagram parsing, the dispatcher's
post-dispatch settlement and the admission polling loop are translated
directly from the source.  Concurrency is modelled by a small-step relation
over a system state holding one registry and the per-request dispatch tasks.
-/

set_option maxRecDepth 4000

/-- Node health, from `enum NodeHealth` in balancer.rs.  `Failed` keeps its
`Instant` timestamp, modelled as `Nat`. -/
inductive NodeHealth where
  | Available
  | Busy
  | Failed (since : Nat)
deriving DecidableEq, Repr

/-- Node record, from `struct NodeInfo` in balancer.rs. -/
structure NodeInfo where
  state : NodeHealth
  service_url : String
  last_seen : Nat
deriving DecidableEq, Repr

/-- One per-service-class registry: the `HashMap<String, NodeInfo>` in
iteration order, keyed by the unique node id. -/
abbrev Registry := List (String × NodeInfo)

/-- From `AppState::find_and_occupy_node`: scan the registry, flip the first
`Available` entry to `Busy` and return its `(id, service_url)`; return `none`
and leave the registry untouched when no entry is `Available`.  The second
component is the registry after the call. -/
def find_and_occupy_node : Registry → Option (String × String) × Registry
  | [] => (none, [])
  | (id, info) :: rest =>
    if info.state = NodeHealth.Available then
      (some (id, info.service_url), (id, { info with state := NodeHealth.Busy }) :: rest)
    else
      let r := find_and_occupy_node rest
      (r.1, (id, info) :: r.2)

/-- From `AppState::update_node_state`: set the health of the entry keyed by
`unique_node_id`; a no-op when the id is absent (`nodes.get_mut` returns
`None`).  The `HashMap` holds at most one entry per key, so updating the first
occurrence models `get_mut`. -/
def update_node_state : Registry → String → NodeHealth → Registry
  | [], _, _ => []
  | (id0, info) :: rest, unique_node_id, new_health =>
    if id0 = unique_node_id then (id0, { info with state := new_health }) :: rest
    else (id0, info) :: update_node_state rest unique_node_id new_health

/-- From the discovery listener's `nodes.insert(unique_node_id, NodeInfo {...})`:
insert-or-replace with state `Available`, the effective url and a fresh
`last_seen`.  A present key is replaced in place; a new key is appended. -/
def upsert : Registry → String → String → Nat → Registry
  | [], id, url, now => [(id, ⟨NodeHealth.Available, url, now⟩)]
  | (id0, info) :: rest, id, url, now =>
    if id0 = id then (id, ⟨NodeHealth.Available, url, now⟩) :: rest
    else (id0, info) :: upsert rest id url now

/-- From `remove_stale_nodes`: the staleness test
`now.duration_since(node_info.last_seen) > timeout` (saturating subtraction). -/
def is_stale (now : Nat) (info : NodeInfo) (timeout : Nat) : Bool :=
  decide (now - info.last_seen > timeout)

/-- From `remove_stale_nodes`: `nodes_map.retain` keeps exactly the entries
that are not stale, irrespective of their health. -/
def remove_stale_nodes (reg : Registry) (timeout now : Nat) : Registry :=
  reg.filter fun e => ! is_stale now e.2 timeout

/-- Projection of a registry entry onto the fields never touched by
`find_and_occupy_node` and `update_node_state`: key, endpoint url, last_seen. -/
def frameFields (e : String × NodeInfo) : String × String × Nat :=
  (e.1, e.2.service_url, e.2.last_seen)

/-- A registry has pairwise-distinct keys (always true of the source's
`HashMap`). -/
def nodupKeys (reg : Registry) : Prop := (reg.map Prod.fst).Nodup

instance : DecidablePred nodupKeys := fun reg =>
  inferInstanceAs (Decidable (reg.map Prod.fst).Nodup)

-- ### Basic lemmas about the registry operations

theorem find_and_occupy_node_of_no_available (reg : Registry)
    (h : ∀ e ∈ reg, e.2.state ≠ NodeHealth.Available) :
    find_and_occupy_node reg = (none, reg) := by
  induction reg with
  | nil => rfl
  | cons e rest ih =>
    obtain ⟨id, info⟩ := e
    have hne : ¬ info.state = NodeHealth.Available := h (id, info) (List.mem_cons_self _ _)
    simp only [find_and_occupy_node, if_neg hne]
    have := ih fun e he => h e (List.mem_cons_of_mem _ he)
    rw [this]

theorem find_and_occupy_node_fst_none (reg : Registry)
    (h : (find_and_occupy_node reg).1 = none) :
    (find_and_occupy_node reg).2 = reg ∧ ∀ e ∈ reg, e.2.state ≠ NodeHealth.Available := by
  induction reg with
  | nil => exact ⟨rfl, by simp⟩
  | cons e rest ih =>
    obtain ⟨id, info⟩ := e
    by_cases hav : info.state = NodeHealth.Available
    · exfalso
      simp [find_and_occupy_node, if_pos hav] at h
    · simp only [find_and_occupy_node, if_neg hav] at h ⊢
      obtain ⟨h2, h3⟩ := ih h
      refine ⟨by rw [h2], ?_⟩
      intro e he
      rcases List.mem_cons.1 he with rfl | hmem
      · exact hav
      · exact h3 e hmem

theorem find_and_occupy_node_fst_some (reg : Registry) (id url : String)
    (h : (find_and_occupy_node reg).1 = some (id, url)) :
    ∃ pre info post, reg = pre ++ (id, info) :: post ∧
      (∀ e ∈ pre, e.2.state ≠ NodeHealth.Available) ∧
      info.state = NodeHealth.Available ∧ url = info.service_url ∧
      (find_and_occupy_node reg).2 =
        pre ++ (id, { info with state := NodeHealth.Busy }) :: post := by
  induction reg with
  | nil => simp [find_and_occupy_node] at h
  | cons e rest ih =>
    obtain ⟨id0, info0⟩ := e
    by_cases hav : info0.state = NodeHealth.Available
    · simp only [find_and_occupy_node, if_pos hav] at h ⊢
      obtain ⟨h1, h2⟩ := Prod.mk.injEq .. ▸ Option.some.injEq .. ▸ h
      refine ⟨[], info0, rest, ?_⟩
      simp_all
    · simp only [find_and_occupy_node, if_neg hav] at h ⊢
      obtain ⟨pre, info, post, hreg, hpre, hst, hurl, hres⟩ := ih h
      refine ⟨(id0, info0) :: pre, info, post, by rw [hreg]; rfl, ?_, hst, hurl,
        by rw [hres]; rfl⟩
      intro e he
      rcases List.mem_cons.1 he with rfl | hmem
      · exact hav
      · exact hpre e hmem

theorem find_and_occupy_node_frame (reg : Registry) :
    ((find_and_occupy_node reg).2).map frameFields = reg.map frameFields := by
  induction reg with
  | nil => rfl
  | cons e rest ih =>
    obtain ⟨id, info⟩ := e
    by_cases hav : info.state = NodeHealth.Available
    · simp [find_and_occupy_node, if_pos hav, frameFields]
    · simp only [find_and_occupy_node, if_neg hav, List.map_cons]
      rw [ih]

theorem update_node_state_absent (reg : Registry) (id : String) (h : NodeHealth)
    (habs : ∀ e ∈ reg, e.1 ≠ id) : update_node_state reg id h = reg := by
  induction reg with
  | nil => rfl
  | cons e rest ih =>
    obtain ⟨id0, info0⟩ := e
    have hne : ¬ id0 = id := habs (id0, info0) (List.mem_cons_self _ _)
    simp only [update_node_state, if_neg hne]
    rw [ih fun e he => habs e (List.mem_cons_of_mem _ he)]

theorem update_node_state_decomp (reg : Registry) (id : String) (h : NodeHealth) :
    update_node_state reg id h = reg ∨
      ∃ pre info post, reg = pre ++ (id, info) :: post ∧ (∀ e ∈ pre, e.1 ≠ id) ∧
        update_node_state reg id h = pre ++ (id, { info with state := h }) :: post := by
  induction reg with
  | nil => exact Or.inl rfl
  | cons e rest ih =>
    obtain ⟨id0, info0⟩ := e
    by_cases heq : id0 = id
    · subst heq
      refine Or.inr ⟨[], info0, rest, rfl, by simp, ?_⟩
      simp [update_node_state]
    · rcases ih with hsame | ⟨pre, info, post, hreg, hpre, hupd⟩
      · left
        simp only [update_node_state, if_neg heq]
        rw [hsame]
      · refine Or.inr ⟨(id0, info0) :: pre, info, post, by rw [hreg]; rfl, ?_, ?_⟩
        · intro e he
          rcases List.mem_cons.1 he with rfl | hmem
          · exact heq
          · exact hpre e hmem
        · simp only [update_node_state, if_neg heq]
          rw [hupd]; rfl

theorem update_node_state_frame (reg : Registry) (id : String) (h : NodeHealth) :
    (update_node_state reg id h).map frameFields = reg.map frameFields := by
  induction reg with
  | nil => rfl
  | cons e rest ih =>
    obtain ⟨id0, info0⟩ := e
    by_cases heq : id0 = id
    · simp [update_node_state, if_pos heq, frameFields]
    · simp only [update_node_state, if_neg heq, List.map_cons]
      rw [ih]

theorem update_node_state_mem (reg : Registry) (id : String) (h : NodeHealth)
    (e : String × NodeInfo) (he : e ∈ update_node_state reg id h) :
    e ∈ reg ∨ (e.1 = id ∧ e.2.state = h) := by
  induction reg with
  | nil => simp [update_node_state] at he
  | cons f rest ih =>
    obtain ⟨id0, info0⟩ := f
    by_cases heq : id0 = id
    · simp only [update_node_state, if_pos heq] at he
      rcases List.mem_cons.1 he with rfl | hmem
      · exact Or.inr ⟨heq, rfl⟩
      · exact Or.inl (List.mem_cons_of_mem _ hmem)
    · simp only [update_node_state, if_neg heq] at he
      rcases List.mem_cons.1 he with rfl | hmem
      · exact Or.inl (List.mem_cons_self _ _)
      · rcases ih hmem with h1 | h2
        · exact Or.inl (List.mem_cons_of_mem _ h1)
        · exact Or.inr h2

theorem update_node_state_key_state (reg : Registry) (id : String) (h : NodeHealth)
    (hnd : nodupKeys reg) (e : String × NodeInfo)
    (he : e ∈ update_node_state reg id h) (hk : e.1 = id) : e.2.state = h := by
  induction reg with
  | nil => simp [update_node_state] at he
  | cons f rest ih =>
    obtain ⟨id0, info0⟩ := f
    have hnd' : nodupKeys rest := (List.nodup_cons.1 hnd).2
    have hnot : id0 ∉ rest.map Prod.fst := (List.nodup_cons.1 hnd).1
    by_cases heq : id0 = id
    · subst heq
      simp only [update_node_state, if_pos rfl] at he
      rcases List.mem_cons.1 he with rfl | hmem
      · rfl
      · exact absurd (hk ▸ List.mem_map_of_mem Prod.fst hmem) hnot
    · simp only [update_node_state, if_neg heq] at he
      rcases List.mem_cons.1 he with rfl | hmem
      · exact absurd hk heq
      · exact ih hnd' hmem

theorem upsert_mem (reg : Registry) (id url : String) (now : Nat)
    (e : String × NodeInfo) (he : e ∈ upsert reg id url now) :
    e ∈ reg ∨ e = (id, ⟨NodeHealth.Available, url, now⟩) := by
  induction reg with
  | nil => simp [upsert] at he; exact Or.inr he
  | cons f rest ih =>
    obtain ⟨id0, info0⟩ := f
    by_cases heq : id0 = id
    · simp only [upsert, if_pos heq] at he
      rcases List.mem_cons.1 he with rfl | hmem
      · exact Or.inr rfl
      · exact Or.inl (List.mem_cons_of_mem _ hmem)
    · simp only [upsert, if_neg heq] at he
      rcases List.mem_cons.1 he with rfl | hmem
      · exact Or.inl (List.mem_cons_self _ _)
      · rcases ih hmem with h1 | h2
        · exact Or.inl (List.mem_cons_of_mem _ h1)
        · exact Or.inr h2

theorem upsert_keys_sub (reg : Registry) (id url : String) (now : Nat)
    (k : String) (hk : k ∈ (upsert reg id url now).map Prod.fst) :
    k = id ∨ k ∈ reg.map Prod.fst := by
  obtain ⟨e, he, hke⟩ := List.mem_map.1 hk
  rcases upsert_mem reg id url now e he with h1 | h2
  · exact Or.inr (hke ▸ List.mem_map_of_mem Prod.fst h1)
  · left
    rw [← hke, h2]

theorem upsert_nodup (reg : Registry) (id url : String) (now : Nat)
    (hnd : nodupKeys reg) : nodupKeys (upsert reg id url now) := by
  induction reg with
  | nil => simp [upsert, nodupKeys]
  | cons f rest ih =>
    obtain ⟨id0, info0⟩ := f
    have hnd' : nodupKeys rest := (List.nodup_cons.1 hnd).2
    have hnot : id0 ∉ rest.map Prod.fst := (List.nodup_cons.1 hnd).1
    by_cases heq : id0 = id
    · subst heq
      simp only [upsert, if_pos rfl]
      exact List.nodup_cons.2 ⟨hnot, hnd'⟩
    · simp only [upsert, if_neg heq]
      refine List.nodup_cons.2 ⟨?_, ih hnd'⟩
      intro hmem
      rcases upsert_keys_sub rest id url now id0 hmem with rfl | hold
      · exact heq rfl
      · exact hnot hold

theorem remove_stale_nodes_mem (reg : Registry) (timeout now : Nat)
    (e : String × NodeInfo) :
    e ∈ remove_stale_nodes reg timeout now ↔ e ∈ reg ∧ now - e.2.last_seen ≤ timeout := by
  simp [remove_stale_nodes, List.mem_filter, is_stale, Nat.not_lt]

theorem remove_stale_nodes_sublist (reg : Registry) (timeout now : Nat) :
    (remove_stale_nodes reg timeout now).Sublist reg :=
  List.filter_sublist reg

theorem keys_eq_of_frame_eq (l1 l2 : Registry)
    (h : l1.map frameFields = l2.map frameFields) :
    l1.map Prod.fst = l2.map Prod.fst := by
  have h1 : l1.map Prod.fst = (l1.map frameFields).map Prod.fst := by
    rw [List.map_map]; rfl
  have h2 : l2.map Prod.fst = (l2.map frameFields).map Prod.fst := by
    rw [List.map_map]; rfl
  rw [h1, h2, h]

-- ### Discovery: UDP datagram processing (udp_discovery_listener)

/-- Split a character list at the first comma, when one is present
(one step of Rust's `splitn(_, ',')`). -/
def splitFirstComma : List Char → Option (List Char × List Char)
  | [] => none
  | c :: rest =>
    if c = ',' then some ([], rest)
    else
      match splitFirstComma rest with
      | some (l, r) => some (c :: l, r)
      | none => none

/-- Rust's `str::splitn(n, ',')` for `n ≥ 1`: at most `n` fields, the last
field keeping any remaining commas. -/
def splitn : Nat → List Char → List (List Char)
  | 0, _ => []
  | 1, s => [s]
  | n+2, s =>
    match splitFirstComma s with
    | none => [s]
    | some (l, r) => l :: splitn (n+1) r

/-- Rust's `str::trim`: strip leading and trailing whitespace. -/
def trimChars (s : List Char) : List Char :=
  ((s.dropWhile Char.isWhitespace).reverse.dropWhile Char.isWhitespace).reverse

/-- Parse one trimmed datagram into `(service_type, unique_node_id,
announced_service_url)` exactly as the listener does: split into at most 4
comma-separated fields and require 4 fields with first field `DISCOVER`. -/
def parse_discover (msg : List Char) : Option (String × String × String) :=
  match splitn 4 msg with
  | [p0, p1, p2, p3] =>
    if p0 = "DISCOVER".data then some (String.mk p1, String.mk p2, String.mk p3)
    else none
  | _ => none

/-- Structural model of a parsed absolute URL as the `url` crate exposes it to
balancer.rs: scheme, host, optional port (kept as its digit characters) and
the remainder (path, query, fragment) kept verbatim. -/
structure ParsedUrl where
  scheme : List Char
  host : List Char
  port : Option (List Char)
  rest : List Char
deriving DecidableEq, Repr

def isColon (c : Char) : Bool := c = ':'

def isAuthorityEnd (c : Char) : Bool := c = '/' || c = '?' || c = '#'

def takeUntil (p : Char → Bool) (l : List Char) : List Char :=
  l.takeWhile fun c => ! p c

def dropUntil (p : Char → Bool) (l : List Char) : List Char :=
  l.dropWhile fun c => ! p c

/-- Strip the literal `://` scheme separator. -/
def stripSchemeSep (r : List Char) : Option (List Char) :=
  if r.take 3 = [':', '/', '/'] then some (r.drop 3) else none

/-- Validate the `:port` part of the authority (empty input means no port). -/
def parsePort (pp : List Char) : Option (Option (List Char)) :=
  if pp = [] then some none
  else
    let ds := pp.drop 1
    if ds = [] then none
    else if ds.all Char.isDigit then some (some ds) else none

/-- Model of `url::Url::parse` restricted to the absolute
`scheme://host[:port][/path...]` shapes of the discovery protocol: nonempty
scheme before `://`, nonempty host, all-digit port.  Normalisations the crate
applies outside these shapes (default-port elision, path canonicalisation)
are not modelled; balancer.rs only reads `host_str`, calls `set_host` and
re-serialises. -/
def parseUrlChars (l : List Char) : Option ParsedUrl :=
  let scheme := takeUntil isColon l
  match stripSchemeSep (dropUntil isColon l) with
  | none => none
  | some rest2 =>
    if scheme = [] then none
    else
      let auth := takeUntil isAuthorityEnd rest2
      let tail := dropUntil isAuthorityEnd rest2
      let host := takeUntil isColon auth
      if host = [] then none
      else
        match parsePort (dropUntil isColon auth) with
        | none => none
        | some port => some ⟨scheme, host, port, tail⟩

/-- Serialisation of the optional `:port` component. -/
def portPart : Option (List Char) → List Char
  | some ds => ':' :: ds
  | none => []

/-- Serialisation of a parsed URL (`Url::to_string` on the modelled shapes). -/
def urlToList (u : ParsedUrl) : List Char :=
  u.scheme ++ ':' :: '/' :: '/' :: (u.host ++ portPart u.port ++ u.rest)

/-- The listener's localhost rewrite: parse the announced URL; when its host
is `localhost` or `127.0.0.1`, replace the host with the datagram's source IP
and re-serialise; otherwise (other host, or parse failure) keep the announced
URL verbatim. -/
def rewrite_localhost (announced_service_url : String) (src_ip : String) : String :=
  match parseUrlChars announced_service_url.data with
  | some u =>
    if u.host = "localhost".data ∨ u.host = "127.0.0.1".data then
      String.mk (urlToList { u with host := src_ip.data })
    else announced_service_url
  | none => announced_service_url

/-- The two per-service-class registries of `AppState`. -/
structure Registries where
  lm_studio_nodes : Registry
  ollama_nodes : Registry
deriving DecidableEq, Repr

/-- One iteration of `udp_discovery_listener` on a received datagram: the
socket buffer keeps at most the first 1024 bytes, the text is trimmed and
split, well-formed announcements for a known service class upsert that
class's registry, and everything else is dropped. -/
def process_datagram (regs : Registries) (datagram : List Char) (src_ip : String)
    (now : Nat) : Registries :=
  match parse_discover (trimChars (datagram.take 1024)) with
  | some (service_type, unique_node_id, announced_service_url) =>
    let effective := rewrite_localhost announced_service_url src_ip
    if service_type = "lmstudio" then
      { regs with lm_studio_nodes := upsert regs.lm_studio_nodes unique_node_id effective now }
    else if service_type = "ollama" then
      { regs with ollama_nodes := upsert regs.ollama_nodes unique_node_id effective now }
    else regs
  | none => regs

/-- A trimmed datagram text the listener drops: wrong field count or missing
DISCOVER prefix (parse failure), or an unknown service class. -/
def malformed_discovery (msg : List Char) : Bool :=
  match parse_discover msg with
  | some (service_type, _, _) =>
    !(service_type == "lmstudio") && !(service_type == "ollama")
  | none => true

-- ### Dispatcher settlement and admission loop

/-- Outcome of the forwarded request as `handle_service_request` observes it:
a delivered response whose body read succeeds or fails, a transport-level
failure of `forward_request`, or the request future being dropped
(client cancellation / unwind) at an await point after the node was
occupied — in which case the remaining code never runs. -/
inductive ForwardOutcome where
  | response (status : Nat) (bodyRead : Option (List Nat))
  | transportError
  | cancelled
deriving DecidableEq, Repr

/-- The response the proxy sends back, as built by `handle_service_request`. -/
inductive ProxyResponse where
  | passthrough (status : Nat) (body : List Nat)
  | internalError500
  | noResponse
deriving DecidableEq, Repr

/-- Post-occupation behaviour of `handle_service_request` (balancer.rs lines
130-161): on a delivered response with a readable body, mark the node
`Available` on a 2xx status (`StatusCode::is_success`) and `Failed(now)`
otherwise, and relay status and body unchanged; on a body-read error or a
transport error, mark `Failed(now)` and answer 500; on cancellation no
further code runs, so the registry is untouched. -/
def dispatch_settle (reg : Registry) (unique_node_id : String) (now : Nat) :
    ForwardOutcome → Registry × ProxyResponse
  | .response status bodyRead =>
    match bodyRead with
    | some body_bytes =>
      let new_health := if 200 ≤ status ∧ status < 300 then NodeHealth.Available
                        else NodeHealth.Failed now
      (update_node_state reg unique_node_id new_health,
        ProxyResponse.passthrough status body_bytes)
    | none =>
      (update_node_state reg unique_node_id (NodeHealth.Failed now),
        ProxyResponse.internalError500)
  | .transportError =>
    (update_node_state reg unique_node_id (NodeHealth.Failed now),
      ProxyResponse.internalError500)
  | .cancelled => (reg, ProxyResponse.noResponse)

/-- Result of the admission loop: a node was found and dispatch begins, or a
503 ServiceUnavailable is returned after the queue timeout. -/
inductive AdmissionResult where
  | dispatched (id url : String) (elapsed : Nat)
  | noCapacity503 (elapsed : Nat)
deriving DecidableEq, Repr

/-- The admission polling loop of `handle_service_request` in discrete time:
poll `k` happens at elapsed time `k * poll_interval` (the loop sleeps
`poll_interval` between polls).  `reg_at k` is the registry contents the
`k`-th `find_and_occupy_node` call observes.  Fuel bounds the recursion; the
timeout theorem supplies enough fuel for the loop to settle. -/
def admission_loop (reg_at : Nat → Registry) (queue_timeout poll_interval : Nat) :
    Nat → Nat → Option AdmissionResult
  | 0, _ => none
  | fuel+1, k =>
    match (find_and_occupy_node (reg_at k)).1 with
    | some (id, url) => some (.dispatched id url (k * poll_interval))
    | none =>
      if k * poll_interval > queue_timeout then
        some (.noCapacity503 (k * poll_interval))
      else admission_loop reg_at queue_timeout poll_interval fuel (k+1)

-- ### Concurrency model: interleaved admissions, dispatches, discovery, janitor

/-- Lifecycle of one per-request task: polling in the admission loop, holding
an occupied node while its dispatch is in flight, or settled. -/
inductive TaskState where
  | waiting
  | holding (id : String)
  | settled
deriving DecidableEq, Repr

def isHolding : TaskState → Bool
  | .holding _ => true
  | _ => false

/-- System state for one service class: the shared registry plus the state of
each of the `n` concurrent request tasks. -/
structure SysState (n : Nat) where
  reg : Registry
  tasks : Fin n → TaskState

def updTask {n : Nat} (ts : Fin n → TaskState) (i : Fin n) (v : TaskState) :
    Fin n → TaskState :=
  fun j => if j = i then v else ts j

/-- Small-step relation of the system.  Each constructor takes the registry's
lock for one linearisable operation, as in the source: a successful
`find_and_occupy_node` poll of a waiting task, the post-dispatch
`update_node_state` (the dispatcher only ever writes `Available` or
`Failed`), a discovery upsert, and a janitor pass.  The Bool index selects
whether discovery upserts are allowed in the interleaving: steps indexed
`false` are also steps indexed `true`. -/
inductive BStep (n : Nat) : Bool → SysState n → SysState n → Prop where
  | occupy (b : Bool) (s : SysState n) (i : Fin n) (id url : String) (reg' : Registry) :
      s.tasks i = .waiting →
      find_and_occupy_node s.reg = (some (id, url), reg') →
      BStep n b s ⟨reg', updTask s.tasks i (.holding id)⟩
  | settle (b : Bool) (s : SysState n) (i : Fin n) (id : String) (h : NodeHealth) :
      s.tasks i = .holding id →
      (h = NodeHealth.Available ∨ ∃ t, h = NodeHealth.Failed t) →
      BStep n b s ⟨update_node_state s.reg id h, updTask s.tasks i .settled⟩
  | upsertStep (s : SysState n) (id url : String) (now : Nat) :
      BStep n true s ⟨upsert s.reg id url now, s.tasks⟩
  | evictStep (b : Bool) (s : SysState n) (timeout now : Nat) :
      BStep n b s ⟨remove_stale_nodes s.reg timeout now, s.tasks⟩

/-- Reachability in the step relation (with or without discovery upserts). -/
def Reachable (n : Nat) (b : Bool) : SysState n → SysState n → Prop :=
  Relation.ReflTransGen (BStep n b)

def busyCount (reg : Registry) : Nat :=
  (reg.filter fun e => e.2.state = NodeHealth.Busy).length

def holdingCount {n : Nat} (ts : Fin n → TaskState) : Nat :=
  (Finset.univ.filter fun i => isHolding (ts i) = true).card

/-- Mutual-exclusion invariant: distinct keys, at most one holder per node
id, and every held id that is still registered is marked `Busy`. -/
def MutexInv {n : Nat} (s : SysState n) : Prop :=
  nodupKeys s.reg ∧
  (∀ i j : Fin n, ∀ id, s.tasks i = .holding id → s.tasks j = .holding id → i = j) ∧
  (∀ i : Fin n, ∀ id, s.tasks i = .holding id →
     ∀ e ∈ s.reg, e.1 = id → e.2.state = NodeHealth.Busy)

/-- Coverage invariant: distinct keys, and every `Busy` entry is held by some
in-flight task. -/
def BusyCover {n : Nat} (s : SysState n) : Prop :=
  nodupKeys s.reg ∧
  ∀ e ∈ s.reg, e.2.state = NodeHealth.Busy → ∃ i : Fin n, s.tasks i = .holding e.1

theorem nodupKeys_decomp {pre post : Registry} {x : String × NodeInfo}
    (h : nodupKeys (pre ++ x :: post)) :
    ∀ e, e ∈ pre ∨ e ∈ post → e.1 ≠ x.1 := by
  have hmap : (pre ++ x :: post).map Prod.fst
      = pre.map Prod.fst ++ x.1 :: post.map Prod.fst := by
    simp
  rw [nodupKeys, hmap] at h
  obtain ⟨h1, h2, hdisj⟩ := List.nodup_append.1 h
  obtain ⟨hnotpost, _⟩ := List.nodup_cons.1 h2
  intro e he
  rcases he with hpre | hpost
  · intro heq
    exact hdisj (heq ▸ List.mem_map_of_mem Prod.fst hpre) (List.mem_cons_self _ _)
  · intro heq
    exact hnotpost (heq ▸ List.mem_map_of_mem Prod.fst hpost)

theorem nodupKeys_of_frame_eq {l1 l2 : Registry}
    (h : l1.map frameFields = l2.map frameFields) (hnd : nodupKeys l2) :
    nodupKeys l1 := by
  rw [nodupKeys, keys_eq_of_frame_eq l1 l2 h]
  exact hnd

theorem mutexInv_step {n : Nat} {s s' : SysState n}
    (hstep : BStep n false s s') (inv : MutexInv s) : MutexInv s' := by
  obtain ⟨hnd, huniq, hbusy⟩ := inv
  cases hstep with
  | occupy b s i id url reg' hw hocc =>
    have hfst : (find_and_occupy_node s.reg).1 = some (id, url) := by rw [hocc]
    obtain ⟨pre, info, post, hreg, hpre, hav, hurl, hres⟩ :=
      find_and_occupy_node_fst_some s.reg id url hfst
    have hreg' : reg' = pre ++ (id, { info with state := NodeHealth.Busy }) :: post := by
      rw [← hres, hocc]
    have hndpre : nodupKeys (pre ++ (id, info) :: post) := hreg ▸ hnd
    have hnd' : nodupKeys reg' := by
      refine nodupKeys_of_frame_eq ?_ hnd
      have := find_and_occupy_node_frame s.reg
      rw [hocc] at this
      exact this
    have hmem : (id, info) ∈ s.reg := by
      rw [hreg]
      exact List.mem_append_right _ (List.mem_cons_self _ _)
    -- no task already holds the picked id, since its entry was Available
    have hnoheld : ∀ j : Fin n, s.tasks j ≠ .holding id := by
      intro j hj
      have := hbusy j id hj (id, info) hmem rfl
      rw [hav] at this
      exact absurd this (by intro hcontra; cases hcontra)
    refine ⟨hnd', ?_, ?_⟩
    · intro i' j' id' hi' hj'
      by_cases hii : i' = i <;> by_cases hjj : j' = i
      · rw [hii, hjj]
      · subst hii
        simp only [updTask, if_pos rfl] at hi'
        simp only [updTask, if_neg hjj] at hj'
        cases hi'
        exact absurd hj' (hnoheld j')
      · subst hjj
        simp only [updTask, if_pos rfl] at hj'
        simp only [updTask, if_neg hii] at hi'
        cases hj'
        exact absurd hi' (hnoheld i')
      · simp only [updTask, if_neg hii] at hi'
        simp only [updTask, if_neg hjj] at hj'
        exact huniq i' j' id' hi' hj'
    · intro i' id' hi' e he hkey
      rw [hreg'] at he
      rcases List.mem_append.1 he with hepre | hecons
      · -- entries before the flipped one are unchanged
        have hene : e.1 ≠ id := nodupKeys_decomp hndpre e (Or.inl hepre)
        have hein : e ∈ s.reg := by
          rw [hreg]; exact List.mem_append_left _ hepre
        by_cases hii : i' = i
        · subst hii
          simp only [updTask, if_pos rfl] at hi'
          cases hi'
          exact absurd hkey hene
        · simp only [updTask, if_neg hii] at hi'
          exact hbusy i' id' hi' e hein hkey
      · rcases List.mem_cons.1 hecons with rfl | hepost
        · rfl
        · have hene : e.1 ≠ id := nodupKeys_decomp hndpre e (Or.inr hepost)
          have hein : e ∈ s.reg := by
            rw [hreg]
            exact List.mem_append_right _ (List.mem_cons_of_mem _ hepost)
          by_cases hii : i' = i
          · subst hii
            simp only [updTask, if_pos rfl] at hi'
            cases hi'
            exact absurd hkey hene
          · simp only [updTask, if_neg hii] at hi'
            exact hbusy i' id' hi' e hein hkey
  | settle b s i id h hhold hval =>
    have hnd' : nodupKeys (update_node_state s.reg id h) :=
      nodupKeys_of_frame_eq (update_node_state_frame s.reg id h) hnd
    refine ⟨hnd', ?_, ?_⟩
    · intro i' j' id' hi' hj'
      by_cases hii : i' = i
      · subst hii
        simp only [updTask, if_pos rfl] at hi'
        cases hi'
      · by_cases hjj : j' = i
        · subst hjj
          simp only [updTask, if_pos rfl] at hj'
          cases hj'
        · simp only [updTask, if_neg hii] at hi'
          simp only [updTask, if_neg hjj] at hj'
          exact huniq i' j' id' hi' hj'
    · intro i' id' hi' e he hkey
      by_cases hii : i' = i
      · subst hii
        simp only [updTask, if_pos rfl] at hi'
        cases hi'
      · simp only [updTask, if_neg hii] at hi'
        rcases update_node_state_mem s.reg id h e he with hein | ⟨hkid, _⟩
        · exact hbusy i' id' hi' e hein hkey
        · -- the settled node's id equals id', so i' also held id: contradiction
          rw [hkey] at hkid
          subst hkid
          exact absurd (huniq i' i id' hi' hhold) hii
  | evictStep b s timeout now =>
    have hsub := remove_stale_nodes_sublist s.reg timeout now
    refine ⟨(List.Sublist.map Prod.fst hsub).nodup hnd, huniq, ?_⟩
    intro i' id' hi' e he hkey
    exact hbusy i' id' hi' e (hsub.mem he) hkey

theorem busyCover_step {n : Nat} {b : Bool} {s s' : SysState n}
    (hstep : BStep n b s s') (inv : BusyCover s) : BusyCover s' := by
  obtain ⟨hnd, hcov⟩ := inv
  cases hstep with
  | occupy b s i id url reg' hw hocc =>
    have hfst : (find_and_occupy_node s.reg).1 = some (id, url) := by rw [hocc]
    obtain ⟨pre, info, post, hreg, hpre, hav, hurl, hres⟩ :=
      find_and_occupy_node_fst_some s.reg id url hfst
    have hreg' : reg' = pre ++ (id, { info with state := NodeHealth.Busy }) :: post := by
      rw [← hres, hocc]
    have hnd' : nodupKeys reg' := by
      refine nodupKeys_of_frame_eq ?_ hnd
      have := find_and_occupy_node_frame s.reg
      rw [hocc] at this
      exact this
    refine ⟨hnd', ?_⟩
    intro e he hbusy
    rw [hreg'] at he
    rcases List.mem_append.1 he with hepre | hecons
    · have hein : e ∈ s.reg := by rw [hreg]; exact List.mem_append_left _ hepre
      obtain ⟨j, hj⟩ := hcov e hein hbusy
      refine ⟨j, ?_⟩
      have hji : j ≠ i := by
        intro hji
        rw [hji, hw] at hj
        cases hj
      simp only [updTask, if_neg hji]
      exact hj
    · rcases List.mem_cons.1 hecons with rfl | hepost
      · exact ⟨i, by simp [updTask]⟩
      · have hein : e ∈ s.reg := by
          rw [hreg]
          exact List.mem_append_right _ (List.mem_cons_of_mem _ hepost)
        obtain ⟨j, hj⟩ := hcov e hein hbusy
        refine ⟨j, ?_⟩
        have hji : j ≠ i := by
          intro hji
          rw [hji, hw] at hj
          cases hj
        simp only [updTask, if_neg hji]
        exact hj
  | settle b s i id h hhold hval =>
    have hnd' : nodupKeys (update_node_state s.reg id h) :=
      nodupKeys_of_frame_eq (update_node_state_frame s.reg id h) hnd
    refine ⟨hnd', ?_⟩
    intro e he hbusy
    have hne : e.1 ≠ id := by
      intro hkid
      have := update_node_state_key_state s.reg id h hnd e he hkid
      rw [this] at hbusy
      rcases hval with rfl | ⟨t, rfl⟩ <;> cases hbusy
    rcases update_node_state_mem s.reg id h e he with hein | ⟨hkid, _⟩
    · obtain ⟨j, hj⟩ := hcov e hein hbusy
      refine ⟨j, ?_⟩
      have hji : j ≠ i := by
        intro hji
        rw [hji, hhold] at hj
        cases hj
        exact hne rfl
      simp only [updTask, if_neg hji]
      exact hj
    · exact absurd hkid hne
  | upsertStep s id url now =>
    refine ⟨upsert_nodup s.reg id url now hnd, ?_⟩
    intro e he hbusy
    rcases upsert_mem s.reg id url now e he with hein | rfl
    · exact hcov e hein hbusy
    · cases hbusy
  | evictStep b s timeout now =>
    have hsub := remove_stale_nodes_sublist s.reg timeout now
    refine ⟨(List.Sublist.map Prod.fst hsub).nodup hnd, ?_⟩
    intro e he hbusy
    exact hcov e (hsub.mem he) hbusy

theorem mutexInv_reachable {n : Nat} {s0 s : SysState n}
    (h0 : MutexInv s0) (hr : Reachable n false s0 s) : MutexInv s := by
  induction hr with
  | refl => exact h0
  | tail _ hstep ih => exact mutexInv_step hstep ih

theorem busyCover_reachable {n : Nat} {b : Bool} {s0 s : SysState n}
    (h0 : BusyCover s0) (hr : Reachable n b s0 s) : BusyCover s := by
  induction hr with
  | refl => exact h0
  | tail _ hstep ih => exact busyCover_step hstep ih

theorem busyCount_le_holdingCount {n : Nat} (reg : Registry) (ts : Fin n → TaskState)
    (hnd : nodupKeys reg)
    (hcov : ∀ e ∈ reg, e.2.state = NodeHealth.Busy → ∃ i : Fin n, ts i = .holding e.1) :
    busyCount reg ≤ holdingCount ts := by
  classical
  have hsub : (reg.filter fun e => e.2.state = NodeHealth.Busy).Sublist reg :=
    List.filter_sublist reg
  have hknd : ((reg.filter fun e => e.2.state = NodeHealth.Busy).map Prod.fst).Nodup :=
    (List.Sublist.map Prod.fst hsub).nodup hnd
  cases n with
  | zero =>
    have hempty : reg.filter (fun e => e.2.state = NodeHealth.Busy) = [] := by
      rw [List.eq_nil_iff_forall_not_mem]
      intro e he
      obtain ⟨hin, hb⟩ := List.mem_filter.1 he
      obtain ⟨i, _⟩ := hcov e hin (by simpa using hb)
      exact absurd i.2 (Nat.not_lt_zero _)
    rw [busyCount, hempty]
    exact Nat.zero_le _
  | succ m =>
    set l := reg.filter fun e => e.2.state = NodeHealth.Busy with hl
    set S : Finset String := (l.map Prod.fst).toFinset with hS
    have hcard : S.card = l.length := by
      rw [hS, List.toFinset_card_of_nodup hknd, List.length_map]
    have hhold : ∀ id ∈ S, ∃ i : Fin (m+1), ts i = .holding id := by
      intro id hid
      obtain ⟨e, he, hke⟩ := List.mem_map.1 (List.mem_toFinset.1 hid)
      obtain ⟨hin, hb⟩ := List.mem_filter.1 he
      obtain ⟨i, hi⟩ := hcov e hin (by simpa using hb)
      exact ⟨i, hke ▸ hi⟩
    set f : String → Fin (m+1) := fun id =>
      if hx : ∃ i : Fin (m+1), ts i = .holding id then hx.choose else 0 with hf
    have hmaps : ∀ id ∈ S, f id ∈ Finset.univ.filter fun i => isHolding (ts i) = true := by
      intro id hid
      have hx := hhold id hid
      have : ts (f id) = .holding id := by
        rw [hf]
        simp only [dif_pos hx]
        exact hx.choose_spec
      refine Finset.mem_filter.2 ⟨Finset.mem_univ _, ?_⟩
      rw [this]
      rfl
    have hinj : Set.InjOn f S := by
      intro a ha b hb hab
      have hxa := hhold a (by simpa using ha)
      have hxb := hhold b (by simpa using hb)
      have hta : ts (f a) = .holding a := by
        rw [hf]; simp only [dif_pos hxa]; exact hxa.choose_spec
      have htb : ts (f b) = .holding b := by
        rw [hf]; simp only [dif_pos hxb]; exact hxb.choose_spec
      rw [hab, htb] at hta
      cases hta
      rfl
    have := Finset.card_le_card_of_injOn f hmaps hinj
    rw [hcard] at this
    exact this

-- ### URL parsing lemmas

theorem takeUntil_append_dropUntil (p : Char → Bool) (l : List Char) :
    takeUntil p l ++ dropUntil p l = l := by
  rw [takeUntil, dropUntil]
  exact List.takeWhile_append_dropWhile _ _

theorem stripSchemeSep_some {r rest2 : List Char}
    (h : stripSchemeSep r = some rest2) : r = ':' :: '/' :: '/' :: rest2 := by
  rw [stripSchemeSep] at h
  by_cases h3 : r.take 3 = [':', '/', '/']
  · rw [if_pos h3, Option.some.injEq] at h
    have := List.take_append_drop 3 r
    rw [h3, h] at this
    exact this.symm
  · rw [if_neg h3] at h
    cases h

theorem dropUntil_cons {p : Char → Bool} {l : List Char} {c : Char} {t : List Char}
    (h : dropUntil p l = c :: t) : p c = true := by
  induction l with
  | nil => cases h
  | cons c0 l' ih =>
    rw [dropUntil, List.dropWhile] at h
    by_cases hp : p c0
    · rw [hp] at h
      simp only [Bool.not_true] at h
      cases h
      exact hp
    · have hb : p c0 = false := by
        cases hpc : p c0
        · rfl
        · exact absurd hpc hp
      rw [hb] at h
      simp only [Bool.not_false] at h
      exact ih h

theorem parsePort_none_arg {pp : List Char}
    (h : parsePort pp = some none) : pp = [] := by
  simp only [parsePort] at h
  by_cases hnil : pp = []
  · exact hnil
  · rw [if_neg hnil] at h
    by_cases hds : pp.drop 1 = []
    · rw [if_pos hds] at h; cases h
    · rw [if_neg hds] at h
      by_cases hdig : (pp.drop 1).all Char.isDigit
      · rw [if_pos hdig] at h; simp at h
      · rw [if_neg hdig] at h; cases h

theorem parsePort_some_arg {pp ds : List Char}
    (hcolon : ∀ c t, pp = c :: t → c = ':')
    (h : parsePort pp = some (some ds)) : pp = ':' :: ds := by
  simp only [parsePort] at h
  by_cases hnil : pp = []
  · rw [if_pos hnil] at h; simp at h
  · rw [if_neg hnil] at h
    by_cases hds0 : pp.drop 1 = []
    · rw [if_pos hds0] at h; cases h
    · rw [if_neg hds0] at h
      by_cases hdig : (pp.drop 1).all Char.isDigit
      · rw [if_pos hdig] at h
        have hd : pp.drop 1 = ds := by simpa using h
        cases pp with
        | nil => exact absurd rfl hnil
        | cons c t =>
          have hc : c = ':' := hcolon c t rfl
          rw [hc]
          simp only [List.drop] at hd
          rw [hd]
      · rw [if_neg hdig] at h; cases h

theorem url_assemble (S H T P : List Char) (port : Option (List Char))
    (hP : P = portPart port) :
    S ++ ':' :: '/' :: '/' :: ((H ++ P) ++ T) = urlToList ⟨S, H, port, T⟩ := by
  subst hP
  simp [urlToList, List.append_assoc]

theorem parseUrlChars_roundtrip {l : List Char} {u : ParsedUrl}
    (h : parseUrlChars l = some u) : l = urlToList u := by
  have hstrip0 : ∃ rest2, stripSchemeSep (dropUntil isColon l) = some rest2 := by
    cases hs : stripSchemeSep (dropUntil isColon l) with
    | none =>
      simp only [parseUrlChars, hs] at h
      exact Option.noConfusion h
    | some r => exact ⟨r, rfl⟩
  obtain ⟨rest2, hstrip⟩ := hstrip0
  simp only [parseUrlChars, hstrip] at h
  by_cases hsch : takeUntil isColon l = []
  · rw [if_pos hsch] at h; cases h
  rw [if_neg hsch] at h
  by_cases hhost : takeUntil isColon (takeUntil isAuthorityEnd rest2) = []
  · rw [if_pos hhost] at h; cases h
  rw [if_neg hhost] at h
  cases hport : parsePort (dropUntil isColon (takeUntil isAuthorityEnd rest2)) with
  | none => rw [hport] at h; cases h
  | some port =>
    simp only [hport, Option.some.injEq] at h
    subst h
    have hcolon : ∀ c t,
        dropUntil isColon (takeUntil isAuthorityEnd rest2) = c :: t → c = ':' := by
      intro c t hct
      have := dropUntil_cons hct
      rw [isColon] at this
      exact of_decide_eq_true this
    have hP : dropUntil isColon (takeUntil isAuthorityEnd rest2) = portPart port := by
      cases port with
      | none => simpa [portPart] using parsePort_none_arg hport
      | some ds => simpa [portPart] using parsePort_some_arg hcolon hport
    calc l = takeUntil isColon l ++ dropUntil isColon l :=
          (takeUntil_append_dropUntil isColon l).symm
      _ = takeUntil isColon l ++ ':' :: '/' :: '/' :: rest2 := by
          rw [stripSchemeSep_some hstrip]
      _ = takeUntil isColon l ++ ':' :: '/' :: '/' ::
            (takeUntil isAuthorityEnd rest2 ++ dropUntil isAuthorityEnd rest2) := by
          rw [takeUntil_append_dropUntil isAuthorityEnd rest2]
      _ = takeUntil isColon l ++ ':' :: '/' :: '/' ::
            ((takeUntil isColon (takeUntil isAuthorityEnd rest2)
              ++ dropUntil isColon (takeUntil isAuthorityEnd rest2))
              ++ dropUntil isAuthorityEnd rest2) := by
          rw [takeUntil_append_dropUntil isColon (takeUntil isAuthorityEnd rest2)]
      _ = urlToList ⟨takeUntil isColon l,
            takeUntil isColon (takeUntil isAuthorityEnd rest2), port,
            dropUntil isAuthorityEnd rest2⟩ :=
          url_assemble _ _ _ _ port hP

-- ### Admission loop lemma

theorem admission_loop_times_out (reg_at : Nat → Registry) (T p : Nat) (hp : 0 < p)
    (hnone : ∀ k, k * p ≤ T + p → (find_and_occupy_node (reg_at k)).1 = none) :
    ∀ fuel k, (k - 1) * p ≤ T → T / p + 2 ≤ fuel + k →
      ∃ m, k ≤ m ∧ m * p ≤ T + p ∧
        admission_loop reg_at T p fuel k = some (.noCapacity503 (m * p)) := by
  intro fuel
  induction fuel with
  | zero =>
    intro k hkp hfuel
    exfalso
    simp only [Nat.zero_add] at hfuel
    have hk1 : T / p + 1 ≤ k - 1 := by omega
    have h1 : (T / p + 1) * p ≤ (k - 1) * p := Nat.mul_le_mul_right p hk1
    have hdm := Nat.div_add_mod T p
    have hmod : T % p < p := Nat.mod_lt T hp
    have hring : (T / p + 1) * p = p * (T / p) + p := by ring
    omega
  | succ fuel ih =>
    intro k hkp hfuel
    have hkbound : k * p ≤ T + p := by
      cases k with
      | zero => simp
      | succ k0 =>
        have : k0 * p ≤ T := by simpa using hkp
        calc (k0 + 1) * p = k0 * p + p := by ring
          _ ≤ T + p := by omega
    have hk := hnone k hkbound
    rw [admission_loop, hk]
    by_cases htime : k * p > T
    · rw [if_pos htime]
      exact ⟨k, Nat.le_refl k, hkbound, rfl⟩
    · rw [if_neg htime]
      have hkT : k * p ≤ T := Nat.le_of_not_lt htime
      obtain ⟨m, hm1, hm2, hm3⟩ := ih (k + 1) (by simpa using hkT) (by omega)
      exact ⟨m, by omega, hm2, hm3⟩

-- ### Claim theorems

/-- C3: if no registry entry is Available (including the empty registry),
`find_and_occupy_node` returns none and leaves every entry unchanged;
otherwise it flips exactly the first encountered Available entry to Busy and
returns that entry's (id, endpoint_url) pair, leaving all other entries
unchanged. -/
theorem C3_find_and_occupy_spec (reg : Registry) :
    ((∀ e ∈ reg, e.2.state ≠ NodeHealth.Available) →
       find_and_occupy_node reg = (none, reg)) ∧
    (∀ x ∈ reg, x.2.state = NodeHealth.Available →
       ∃ pre y post, reg = pre ++ y :: post ∧
         (∀ e ∈ pre, e.2.state ≠ NodeHealth.Available) ∧
         y.2.state = NodeHealth.Available ∧
         find_and_occupy_node reg =
           (some (y.1, y.2.service_url),
             pre ++ (y.1, { y.2 with state := NodeHealth.Busy }) :: post)) := by
  constructor
  · exact find_and_occupy_node_of_no_available reg
  · intro x hx hav
    cases hres : (find_and_occupy_node reg).1 with
    | none =>
      obtain ⟨_, hall⟩ := find_and_occupy_node_fst_none reg hres
      exact absurd hav (hall x hx)
    | some pair =>
      obtain ⟨id, url⟩ := pair
      obtain ⟨pre, info, post, hreg, hpre, hst, hurl, hres2⟩ :=
        find_and_occupy_node_fst_some reg id url hres
      refine ⟨pre, (id, info), post, hreg, hpre, hst, ?_⟩
      have hpair : find_and_occupy_node reg
          = ((find_and_occupy_node reg).1, (find_and_occupy_node reg).2) := rfl
      rw [hpair, hres, hres2, hurl]

/-- Witness for C3 at a concrete registry with no Available entry. -/
theorem C3_witness :
    find_and_occupy_node [("a", ⟨NodeHealth.Failed 0, "u", 1⟩)]
      = (none, [("a", ⟨NodeHealth.Failed 0, "u", 1⟩)]) :=
  (C3_find_and_occupy_spec [("a", ⟨NodeHealth.Failed 0, "u", 1⟩)]).1 (by decide)

/-- C9: `find_and_occupy_node` and `update_node_state` never insert or remove
registry records and never modify any record's endpoint URL or last_seen
(their images under `frameFields` are unchanged); `find_and_occupy_node`
changes the health of at most one record, from Available to Busy, and
`update_node_state` changes only the health of the record named by its id
argument. -/
theorem C9_frame_effects (reg : Registry) (id : String) (h : NodeHealth) :
    ((find_and_occupy_node reg).2.map frameFields = reg.map frameFields) ∧
    ((find_and_occupy_node reg).2 = reg ∨
      ∃ pre y post, reg = pre ++ y :: post ∧ y.2.state = NodeHealth.Available ∧
        (find_and_occupy_node reg).2
          = pre ++ (y.1, { y.2 with state := NodeHealth.Busy }) :: post) ∧
    ((update_node_state reg id h).map frameFields = reg.map frameFields) ∧
    (update_node_state reg id h = reg ∨
      ∃ pre y post, reg = pre ++ y :: post ∧ y.1 = id ∧ (∀ e ∈ pre, e.1 ≠ id) ∧
        update_node_state reg id h = pre ++ (id, { y.2 with state := h }) :: post) := by
  refine ⟨find_and_occupy_node_frame reg, ?_, update_node_state_frame reg id h, ?_⟩
  · cases hres : (find_and_occupy_node reg).1 with
    | none => exact Or.inl (find_and_occupy_node_fst_none reg hres).1
    | some pair =>
      obtain ⟨i, u⟩ := pair
      obtain ⟨pre, info, post, hreg, _, hst, _, hres2⟩ :=
        find_and_occupy_node_fst_some reg i u hres
      exact Or.inr ⟨pre, (i, info), post, hreg, hst, hres2⟩
  · rcases update_node_state_decomp reg id h with hsame | ⟨pre, info, post, hreg, hpre, hupd⟩
    · exact Or.inl hsame
    · exact Or.inr ⟨pre, (id, info), post, hreg, rfl, hpre, hupd⟩

/-- Witness for C9 at a concrete registry. -/
theorem C9_witness :
    ((find_and_occupy_node [("a", ⟨NodeHealth.Available, "u", 2⟩)]).2).map frameFields
      = [("a", (⟨NodeHealth.Available, "u", 2⟩ : NodeInfo))].map frameFields :=
  (C9_frame_effects [("a", ⟨NodeHealth.Available, "u", 2⟩)] "a" NodeHealth.Busy).1

/-- C6: a janitor pass removes exactly the records whose age now - last_seen
strictly exceeds the inactivity threshold, regardless of health (the
membership characterisation never looks at the health field, so a Busy
record is evicted like any other); and `update_node_state` (set_health) for
an id absent from the registry is a no-op. -/
theorem C6_evict_exact_and_set_health_noop (reg : Registry) (timeout now : Nat)
    (id : String) (h : NodeHealth) :
    (∀ e, e ∈ remove_stale_nodes reg timeout now
        ↔ (e ∈ reg ∧ now - e.2.last_seen ≤ timeout)) ∧
    ((∀ e ∈ reg, e.1 ≠ id) → update_node_state reg id h = reg) :=
  ⟨fun e => remove_stale_nodes_mem reg timeout now e, update_node_state_absent reg id h⟩

/-- Witness for C6: evicting a Busy record past the threshold, and a no-op
set_health on an absent id. -/
theorem C6_witness :
    (("a", (⟨NodeHealth.Busy, "u", 0⟩ : NodeInfo))
        ∈ remove_stale_nodes [("a", ⟨NodeHealth.Busy, "u", 0⟩)] 5 10
      ↔ (("a", (⟨NodeHealth.Busy, "u", 0⟩ : NodeInfo))
           ∈ [("a", (⟨NodeHealth.Busy, "u", 0⟩ : NodeInfo))] ∧ 10 - 0 ≤ 5)) ∧
    update_node_state [("a", ⟨NodeHealth.Busy, "u", 0⟩)] "b" NodeHealth.Available
      = [("a", ⟨NodeHealth.Busy, "u", 0⟩)] :=
  ⟨(C6_evict_exact_and_set_health_noop [("a", ⟨NodeHealth.Busy, "u", 0⟩)] 5 10 "b"
      NodeHealth.Available).1 _,
   (C6_evict_exact_and_set_health_noop [("a", ⟨NodeHealth.Busy, "u", 0⟩)] 5 10 "b"
      NodeHealth.Available).2 (by decide)⟩

/-- C5: when the backend's response headers are received and its body is read
to completion, the proxy's response is the backend's status and body
unchanged (for every status, 2xx or not), and the occupied node's health is
set to Available on a 2xx status and to Failed(now) otherwise. -/
theorem C5_response_passthrough (reg : Registry) (unique_node_id : String)
    (now status : Nat) (body : List Nat) (hnd : nodupKeys reg) :
    (dispatch_settle reg unique_node_id now (.response status (some body))).2
        = ProxyResponse.passthrough status body ∧
    (dispatch_settle reg unique_node_id now (.response status (some body))).1
        = update_node_state reg unique_node_id
            (if 200 ≤ status ∧ status < 300 then NodeHealth.Available
             else NodeHealth.Failed now) ∧
    ∀ e ∈ (dispatch_settle reg unique_node_id now (.response status (some body))).1,
      e.1 = unique_node_id →
        e.2.state = (if 200 ≤ status ∧ status < 300 then NodeHealth.Available
                     else NodeHealth.Failed now) := by
  refine ⟨rfl, rfl, ?_⟩
  intro e he hk
  exact update_node_state_key_state reg unique_node_id _ hnd e he hk

/-- Witness for C5: a 200 response with its body relayed byte-equal. -/
theorem C5_witness :
    (dispatch_settle [("n1", ⟨NodeHealth.Busy, "u", 0⟩)] "n1" 5
        (.response 200 (some [1, 2]))).2 = ProxyResponse.passthrough 200 [1, 2] :=
  (C5_response_passthrough [("n1", ⟨NodeHealth.Busy, "u", 0⟩)] "n1" 5 200 [1, 2]
    (by decide)).1

/-- C2 (code bug): `handle_service_request` has no scoped guard, so when the
request future is dropped at an await point after the node was occupied
(client cancellation), no `update_node_state` call runs and the node stays
`Busy`; by contrast a transport error settles the node to `Failed(now)`. -/
theorem C2_cancellation_busy_leak :
    dispatch_settle [("n1", ⟨NodeHealth.Busy, "http://u/", 3⟩)] "n1" 9
        ForwardOutcome.cancelled
      = ([("n1", ⟨NodeHealth.Busy, "http://u/", 3⟩)], ProxyResponse.noResponse) ∧
    dispatch_settle [("n1", ⟨NodeHealth.Busy, "http://u/", 3⟩)] "n1" 9
        ForwardOutcome.transportError
      = ([("n1", ⟨NodeHealth.Failed 9, "http://u/", 3⟩)], ProxyResponse.internalError500) := by
  constructor
  · rfl
  · rfl

/-- C8 (counterexample): a datagram with an empty node_id but otherwise valid
shape is not dropped — it inserts a record keyed by the empty string, so the
registries do not stay unchanged. -/
theorem C8_empty_node_id_counterexample :
    process_datagram ⟨[], []⟩ "DISCOVER,lmstudio,,http://h/a".data "9.9.9.9" 0
      ≠ ⟨[], []⟩ := by
  decide

/-- C8 (amended): every datagram whose trimmed first-1024-byte text fails the
listener's checks — wrong field count, missing DISCOVER prefix, or unknown
service class — leaves both registries unchanged.  (An empty node_id is NOT
rejected: the code upserts a record keyed by the empty string.) -/
theorem C8_malformed_datagrams_drop (d : List Char) (regs : Registries)
    (src_ip : String) (now : Nat)
    (hmal : malformed_discovery (trimChars (d.take 1024)) = true) :
    process_datagram regs d src_ip now = regs := by
  unfold malformed_discovery at hmal
  cases hp : parse_discover (trimChars (d.take 1024)) with
  | none => simp [process_datagram, hp]
  | some triple =>
    obtain ⟨svc, id, url⟩ := triple
    rw [hp] at hmal
    simp only [Bool.and_eq_true, Bool.not_eq_true', beq_eq_false_iff_ne] at hmal
    obtain ⟨h1, h2⟩ := hmal
    simp [process_datagram, hp, h1, h2]

/-- Witness for C8 at the spec's scenario-8 datagram. -/
theorem C8_witness :
    process_datagram ⟨[], []⟩ "HELLO,lmstudio,n1,url".data "1.2.3.4" 7 = ⟨[], []⟩ :=
  C8_malformed_datagrams_drop "HELLO,lmstudio,n1,url".data ⟨[], []⟩ "1.2.3.4" 7 (by decide)

/-- C10: discovery processes at most the first 1024 bytes of a datagram — the
result depends only on `d.take 1024`, so an over-long datagram is truncated,
never rejected for its length — and the processing upserts the announced
node's class registry exactly when the trimmed first 1024 bytes parse as a
DISCOVER record (dropping it when the class is unknown or parsing fails). -/
theorem C10_truncation (d d' : List Char) (regs : Registries) (src_ip : String)
    (now : Nat) :
    (d.take 1024 = d'.take 1024 →
       process_datagram regs d src_ip now = process_datagram regs d' src_ip now) ∧
    (∀ svc id url, parse_discover (trimChars (d.take 1024)) = some (svc, id, url) →
       process_datagram regs d src_ip now =
         (if svc = "lmstudio" then
            { regs with lm_studio_nodes := upsert regs.lm_studio_nodes id (rewrite_localhost url src_ip) now }
          else if svc = "ollama" then
            { regs with ollama_nodes := upsert regs.ollama_nodes id (rewrite_localhost url src_ip) now }
          else regs)) ∧
    (parse_discover (trimChars (d.take 1024)) = none →
       process_datagram regs d src_ip now = regs) := by
  refine ⟨?_, ?_, ?_⟩
  · intro h
    simp only [process_datagram]
    rw [h]
  · intro svc id url hp
    simp only [process_datagram, hp]
  · intro hp
    simp [process_datagram, hp]

/-- Witness for C10: a 1030-character datagram is processed exactly as its
1024-character truncation. -/
theorem C10_witness :
    process_datagram ⟨[], []⟩
        ("DISCOVER,lmstudio,n1,http://h/".data ++ List.replicate 1000 'a') "1.2.3.4" 0
      = process_datagram ⟨[], []⟩
        (("DISCOVER,lmstudio,n1,http://h/".data ++ List.replicate 1000 'a').take 1024)
        "1.2.3.4" 0 :=
  (C10_truncation ("DISCOVER,lmstudio,n1,http://h/".data ++ List.replicate 1000 'a')
      (("DISCOVER,lmstudio,n1,http://h/".data ++ List.replicate 1000 'a').take 1024)
      ⟨[], []⟩ "1.2.3.4" 0).1 (by rw [List.take_take]; simp)

/-- C7: for a well-formed datagram whose announced URL parses with host
exactly `localhost` or `127.0.0.1`, the stored endpoint URL is the announced
URL with only the host replaced by the datagram's source IP (scheme, port
and path/rest preserved — the announced URL round-trips to `urlToList u` and
the stored one is `urlToList` of the same record with just the host
swapped); for any other parsable host, and on parse failure, the announced
URL is stored verbatim.  The last conjunct shows the discovery pipeline
stores exactly `rewrite_localhost` of the announced URL. -/
theorem C7_localhost_rewrite (announced src_ip : String) (regs : Registries)
    (d : List Char) (now : Nat) :
    (∀ u, parseUrlChars announced.data = some u →
       announced.data = urlToList u ∧
       ((u.host = "localhost".data ∨ u.host = "127.0.0.1".data) →
          rewrite_localhost announced src_ip
            = String.mk (urlToList ⟨u.scheme, src_ip.data, u.port, u.rest⟩)) ∧
       (u.host ≠ "localhost".data → u.host ≠ "127.0.0.1".data →
          rewrite_localhost announced src_ip = announced)) ∧
    (parseUrlChars announced.data = none →
       rewrite_localhost announced src_ip = announced) ∧
    (∀ svc id, parse_discover (trimChars (d.take 1024)) = some (svc, id, announced) →
       (svc = "lmstudio" → process_datagram regs d src_ip now
          = { regs with lm_studio_nodes := upsert regs.lm_studio_nodes id (rewrite_localhost announced src_ip) now }) ∧
       (svc = "ollama" → process_datagram regs d src_ip now
          = { regs with ollama_nodes := upsert regs.ollama_nodes id (rewrite_localhost announced src_ip) now })) := by
  refine ⟨?_, ?_, ?_⟩
  · intro u hu
    refine ⟨parseUrlChars_roundtrip hu, ?_, ?_⟩
    · intro hor
      rw [rewrite_localhost, hu]
      simp only [if_pos hor]
    · intro h1 h2
      rw [rewrite_localhost, hu]
      simp only [if_neg (by tauto : ¬ (u.host = "localhost".data ∨ u.host = "127.0.0.1".data))]
  · intro hnone
    rw [rewrite_localhost, hnone]
  · intro svc id hp
    constructor
    · intro hsvc
      subst hsvc
      simp [process_datagram, hp]
    · intro hsvc
      subst hsvc
      simp only [process_datagram, hp]
      rw [if_neg (by decide : ¬ ("ollama" : String) = "lmstudio")]
      simp

/-- Witness for C7 at the spec's scenario-7 datagram URL. -/
theorem C7_witness :
    rewrite_localhost "http://127.0.0.1:9000/x" "192.168.1.7"
      = "http://192.168.1.7:9000/x" := by
  have h := (C7_localhost_rewrite "http://127.0.0.1:9000/x" "192.168.1.7" ⟨[], []⟩ [] 0).1
    ⟨"http".data, "127.0.0.1".data, some "9000".data, "/x".data⟩ (by decide)
  rw [h.2.1 (by decide)]
  decide

/-- C4: if `find_and_occupy_node` returns none on every poll for the duration
queue_timeout after a request's arrival, the admission loop fails the
request with NoCapacity (HTTP 503) at an elapsed time of at most
queue_timeout + poll_interval, and no poll has modified the registry (no
node was marked Busy). -/
theorem C4_queue_timeout (reg_at : Nat → Registry) (queue_timeout poll_interval : Nat)
    (hp : 0 < poll_interval)
    (hnone : ∀ k, k * poll_interval ≤ queue_timeout + poll_interval →
       (find_and_occupy_node (reg_at k)).1 = none) :
    ∃ m, admission_loop reg_at queue_timeout poll_interval
           (queue_timeout / poll_interval + 2) 0
          = some (AdmissionResult.noCapacity503 (m * poll_interval)) ∧
        m * poll_interval ≤ queue_timeout + poll_interval ∧
        ∀ k, k ≤ m → (find_and_occupy_node (reg_at k)).2 = reg_at k := by
  obtain ⟨m, hm0, hm1, hm2⟩ :=
    admission_loop_times_out reg_at queue_timeout poll_interval hp hnone
      (queue_timeout / poll_interval + 2) 0 (by simp) (by omega)
  refine ⟨m, hm2, hm1, ?_⟩
  intro k hk
  have hkp : k * poll_interval ≤ queue_timeout + poll_interval :=
    le_trans (Nat.mul_le_mul_right _ hk) hm1
  exact (find_and_occupy_node_fst_none _ (hnone k hkp)).1

/-- Witness for C4: an always-empty registry with a 1-tick timeout and
1-tick poll interval times out within 2 ticks. -/
theorem C4_witness :
    ∃ m, admission_loop (fun _ => []) 1 1 3 0
          = some (AdmissionResult.noCapacity503 (m * 1)) ∧
        m * 1 ≤ 1 + 1 ∧
        ∀ k, k ≤ m → (find_and_occupy_node ((fun _ => ([] : Registry)) k)).2
          = (fun _ => ([] : Registry)) k :=
  C4_queue_timeout (fun _ => []) 1 1 (by decide) (fun k _ => rfl)

/-- C1 (amended): starting from any state with distinct keys, no Busy entry
and all request tasks waiting, (1) in every state reachable WITHOUT
discovery upserts interleaved, each node id is held by at most one in-flight
dispatch attempt; and (2) in every state reachable under the FULL
interleaving (admission polls, dispatch settlements, discovery upserts and
janitor evictions), the number of Busy entries never exceeds the number of
dispatches in flight.  (The unamended claim also asserts (1) under the full
interleaving; the counterexample refutes that.) -/
theorem C1_mutual_exclusion_and_busy_bound {n : Nat} (init : SysState n)
    (hwait : ∀ i, init.tasks i = TaskState.waiting)
    (hnb : ∀ e ∈ init.reg, e.2.state ≠ NodeHealth.Busy)
    (hnd : nodupKeys init.reg) :
    (∀ s, Reachable n false init s →
       ∀ i j : Fin n, ∀ id, s.tasks i = TaskState.holding id →
         s.tasks j = TaskState.holding id → i = j) ∧
    (∀ s, Reachable n true init s → busyCount s.reg ≤ holdingCount s.tasks) := by
  have hmutex0 : MutexInv init := by
    refine ⟨hnd, ?_, ?_⟩
    · intro i j id hi
      rw [hwait i] at hi
      cases hi
    · intro i id hi
      rw [hwait i] at hi
      cases hi
  have hcover0 : BusyCover init := by
    refine ⟨hnd, ?_⟩
    intro e he hb
    exact absurd hb (hnb e he)
  constructor
  · intro s hr i j id hi hj
    exact (mutexInv_reachable hmutex0 hr).2.1 i j id hi hj
  · intro s hr
    obtain ⟨hnd', hcov⟩ := busyCover_reachable hcover0 hr
    exact busyCount_le_holdingCount s.reg s.tasks hnd' hcov

/-- Witness for C1 at a one-node, one-task initial state. -/
theorem C1_witness :
    busyCount [("a", ⟨NodeHealth.Available, "u", 0⟩)]
      ≤ holdingCount (fun _ : Fin 1 => TaskState.waiting) :=
  (C1_mutual_exclusion_and_busy_bound
      (⟨[("a", ⟨NodeHealth.Available, "u", 0⟩)], fun _ => TaskState.waiting⟩ : SysState 1)
      (fun _ => rfl) (by decide) (by decide)).2 _ Relation.ReflTransGen.refl

/-- C1 (counterexample): with discovery upserts in the interleaving, two
dispatch attempts can hold the same node simultaneously.  Trace: upsert node
n; task 0 occupies n; a re-announcement upserts n back to Available while
task 0 still holds it; task 1 occupies n. -/
theorem C1_counterexample :
    ¬ (∀ s : SysState 2,
        Reachable 2 true ⟨[], fun _ => TaskState.waiting⟩ s →
        ∀ i j : Fin 2, ∀ id, s.tasks i = TaskState.holding id →
          s.tasks j = TaskState.holding id → i = j) := by
  intro hclaim
  have step1 : BStep 2 true ⟨[], fun _ => TaskState.waiting⟩
      ⟨upsert [] "n" "u" 5, fun _ => TaskState.waiting⟩ :=
    BStep.upsertStep _ "n" "u" 5
  have step2 : BStep 2 true ⟨upsert [] "n" "u" 5, fun _ => TaskState.waiting⟩
      ⟨[("n", ⟨NodeHealth.Busy, "u", 5⟩)],
        updTask (fun _ => TaskState.waiting) 0 (TaskState.holding "n")⟩ :=
    BStep.occupy true _ 0 "n" "u" [("n", ⟨NodeHealth.Busy, "u", 5⟩)] rfl (by decide)
  have step3 : BStep 2 true ⟨[("n", ⟨NodeHealth.Busy, "u", 5⟩)],
      updTask (fun _ => TaskState.waiting) 0 (TaskState.holding "n")⟩
      ⟨upsert [("n", ⟨NodeHealth.Busy, "u", 5⟩)] "n" "u" 6,
        updTask (fun _ => TaskState.waiting) 0 (TaskState.holding "n")⟩ :=
    BStep.upsertStep _ "n" "u" 6
  have step4 : BStep 2 true ⟨upsert [("n", ⟨NodeHealth.Busy, "u", 5⟩)] "n" "u" 6,
      updTask (fun _ => TaskState.waiting) 0 (TaskState.holding "n")⟩
      ⟨[("n", ⟨NodeHealth.Busy, "u", 6⟩)],
        updTask (updTask (fun _ => TaskState.waiting) 0 (TaskState.holding "n")) 1
          (TaskState.holding "n")⟩ :=
    BStep.occupy true _ 1 "n" "u" [("n", ⟨NodeHealth.Busy, "u", 6⟩)] (by decide) (by decide)
  have hreach : Reachable 2 true ⟨[], fun _ => TaskState.waiting⟩
      ⟨[("n", ⟨NodeHealth.Busy, "u", 6⟩)],
        updTask (updTask (fun _ => TaskState.waiting) 0 (TaskState.holding "n")) 1
          (TaskState.holding "n")⟩ :=
    Relation.ReflTransGen.tail (Relation.ReflTransGen.tail
      (Relation.ReflTransGen.tail (Relation.ReflTransGen.single step1) step2) step3) step4
  have h01 := hclaim _ hreach 0 1 "n" (by decide) rfl
  exact absurd h01 (by decide)
